import Mathlib

/-!
Verification of the content-acquisition and normalization pipeline of the
John-Lin/bot repository (Telegram summarizer bot).

The Python sources are shallowly embedded as Lean functions over `List Char`
(Python `str` values).  The embedding covers:

* `bot/utils.py`       : `parse_url`, `docs_to_str`, `download`,
                         `load_document`, `fix_twitter`
* `bot/bot.py`         : `get_message_text`
* `bot/loaders/url.py` : `is_pdf`, `is_youtube_url`, `replace_domain`,
                         `load_url`

`fix_twitter` and `replace_domain` call `urllib.parse.urlparse` /
`urlunparse`, so the relevant part of CPython's `urllib/parse.py`
(CPython 3.10 semantics: `urlsplit`, `urlunsplit`, `_splitparams`,
`_splitnetloc`) is embedded as well.  Network calls and the external
langchain document loaders are modelled as oracles supplied in an
environment record; the on-disk temp-file state used by
`tempfile.NamedTemporaryFile(delete=False)` is modelled as an explicit
file-system record threaded through the functions.
-/

/-! ### Character-level helpers -/

/-- The whitespace set of Python's `str.strip()` / regex `\s`, restricted to
the ASCII range (space, tab, newline, carriage return, vertical tab, form
feed).  The unicode whitespace code points Python additionally recognises do
not occur in the claims and are omitted. -/
def pySpace (c : Char) : Bool :=
  c = ' ' || c = '\t' || c = '\n' || c = '\r' || c = '\x0b' || c = '\x0c'

/-- The three bytes CPython's `urlsplit` removes from its input
(`_UNSAFE_URL_BYTES_TO_REMOVE = ["\t", "\r", "\n"]`): a character is kept
when this predicate holds. -/
def keptByte (c : Char) : Bool :=
  !(c = '\t' || c = '\r' || c = '\n')

/-- CPython's `urllib.parse.scheme_chars`:
letters, digits and `+`, `-`, `.`. -/
def schemeChar (c : Char) : Bool :=
  ('a' ≤ c && c ≤ 'z') || ('A' ≤ c && c ≤ 'Z') || ('0' ≤ c && c ≤ '9') ||
    c = '+' || c = '-' || c = '.'

/-- A character that ends the netloc component in `_splitnetloc`. -/
def netlocDelim (c : Char) : Bool :=
  c = '/' || c = '?' || c = '#'

/-- Python `s.strip()` on a list of characters. -/
def pyStrip (l : List Char) : List Char :=
  ((l.dropWhile pySpace).reverse.dropWhile pySpace).reverse

/-- Python `url.split(sep, 1)` for a one-character separator, as used by
`urlsplit` for `#` and `?`; when the separator is absent the second
component is empty (callers guard with a containment check, and an absent
separator indeed yields the whole string and an empty rest here). -/
def splitOnFirst (c : Char) (l : List Char) : List Char × List Char :=
  (l.takeWhile (fun x => x != c), (l.dropWhile (fun x => x != c)).drop 1)

/-! ### Embedding of `urllib.parse` (CPython 3.10)

`replace_domain` (bot/loaders/url.py) and `fix_twitter` (bot/utils.py) use
`urlparse`, `ParseResult._replace` and `urlunparse`.  `urlsplit` may raise
`ValueError` ("Invalid IPv6 URL") on a bracket-mismatched netloc, hence the
`Except` result; no other failure path of these functions is reachable. -/

structure SplitResult where
  scheme : List Char
  netloc : List Char
  path : List Char
  query : List Char
  fragment : List Char
deriving DecidableEq, Repr

structure ParseResult where
  scheme : List Char
  netloc : List Char
  path : List Char
  params : List Char
  query : List Char
  fragment : List Char
deriving DecidableEq, Repr

/-- The scheme-splitting step of `urlsplit`: if the text up to the first `:`
is a nonempty run of scheme characters, it is lowercased and removed
together with the colon.  Returns `(scheme, rest)`. -/
def splitScheme (l : List Char) : List Char × List Char :=
  match l.findIdx? (fun x => x = ':') with
  | some i =>
    if 0 < i ∧ (l.take i).all schemeChar then
      ((l.take i).map Char.toLower, l.drop (i + 1))
    else
      ([], l)
  | none => ([], l)

/-- CPython `urllib.parse.urlsplit` (3.10): remove tab/CR/LF bytes, split
off the scheme, split off the netloc after a leading `//` (raising
`ValueError` on a bracket mismatch), then split fragment and query. -/
def urlsplit (l0 : List Char) : Except Unit SplitResult :=
  let l := l0.filter keptByte
  let sr := splitScheme l
  let scheme := sr.1
  let l1 := sr.2
  if l1.take 2 = ['/', '/'] then
    let netloc := (l1.drop 2).takeWhile (fun c => !netlocDelim c)
    let rest := (l1.drop 2).dropWhile (fun c => !netlocDelim c)
    if (netloc.contains '[' && !netloc.contains ']') ||
        (netloc.contains ']' && !netloc.contains '[') then
      .error ()
    else
      let fr := splitOnFirst '#' rest
      let pq := splitOnFirst '?' fr.1
      .ok ⟨scheme, netloc, pq.1, pq.2, fr.2⟩
  else
    let fr := splitOnFirst '#' l1
    let pq := splitOnFirst '?' fr.1
    .ok ⟨scheme, [], pq.1, pq.2, fr.2⟩

/-- The schemes for which `urlparse` separates `;params` from the path
(CPython `uses_params`). -/
def uses_params : List (List Char) :=
  [[], "ftp".toList, "hdl".toList, "prospero".toList, "http".toList,
   "imap".toList, "https".toList, "shttp".toList, "rtsp".toList,
   "rtspu".toList, "sip".toList, "sips".toList, "mms".toList,
   "sftp".toList, "tel".toList]

/-- CPython `urllib.parse._splitparams`: split `;params` off the last path
segment (off the whole path when it has no `/`). -/
def splitparams (l : List Char) : List Char × List Char :=
  if l.contains '/' then
    let seg := (l.reverse.takeWhile (fun c => c != '/')).reverse
    let front := (l.reverse.dropWhile (fun c => c != '/')).reverse
    if seg.contains ';' then
      (front ++ seg.takeWhile (fun c => c != ';'),
       (seg.dropWhile (fun c => c != ';')).drop 1)
    else
      (l, [])
  else
    (l.takeWhile (fun c => c != ';'), (l.dropWhile (fun c => c != ';')).drop 1)

/-- CPython `urllib.parse.urlparse`. -/
def urlparse (l : List Char) : Except Unit ParseResult :=
  match urlsplit l with
  | .error e => .error e
  | .ok r =>
    if r.scheme ∈ uses_params ∧ r.path.contains ';' then
      let pp := splitparams r.path
      .ok ⟨r.scheme, r.netloc, pp.1, pp.2, r.query, r.fragment⟩
    else
      .ok ⟨r.scheme, r.netloc, r.path, [], r.query, r.fragment⟩

/-- CPython `urllib.parse.urlunsplit`. -/
def urlunsplit (scheme netloc path query fragment : List Char) : List Char :=
  let u1 :=
    if netloc ≠ [] ∨ path.take 2 = ['/', '/'] then
      '/' :: '/' :: netloc ++
        (if path ≠ [] ∧ path.take 1 ≠ ['/'] then '/' :: path else path)
    else path
  let u2 := if scheme ≠ [] then scheme ++ ':' :: u1 else u1
  let u3 := if query ≠ [] then u2 ++ '?' :: query else u2
  if fragment ≠ [] then u3 ++ '#' :: fragment else u3

/-- CPython `urllib.parse.urlunparse`. -/
def urlunparse (r : ParseResult) : List Char :=
  urlunsplit r.scheme r.netloc
    (if r.params ≠ [] then r.path ++ ';' :: r.params else r.path)
    r.query r.fragment

/-! ### `replace_domain` (bot/loaders/url.py) and `fix_twitter` (bot/utils.py) -/

/-- The `replacements` dict shared (verbatim) by `replace_domain` in
bot/loaders/url.py and `fix_twitter` in bot/utils.py. -/
def replacements : List (List Char × List Char) :=
  [("twitter.com".toList, "api.fxtwitter.com".toList),
   ("x.com".toList, "api.fxtwitter.com".toList)]

/-- Function `replace_domain` from bot/loaders/url.py: parse the URL; when the netloc
is a key of `replacements`, rebuild the URL with the replacement netloc,
otherwise return the input unchanged. -/
def replace_domain (url : List Char) : Except Unit (List Char) :=
  match urlparse url with
  | .error e => .error e
  | .ok r =>
    match replacements.lookup r.netloc with
    | some newNetloc => .ok (urlunparse { r with netloc := newNetloc })
    | none => .ok url

/-- Function `fix_twitter` from bot/utils.py; its body is textually identical to
`replace_domain` in bot/loaders/url.py. -/
def fix_twitter (url : List Char) : Except Unit (List Char) :=
  replace_domain url

example : replace_domain "https://x.com/user/status/123".toList =
    .ok "https://api.fxtwitter.com/user/status/123".toList := by rfl

example : replace_domain "https://www.twitter.com/user/status/123".toList =
    .ok "https://www.twitter.com/user/status/123".toList := by rfl

/-! ### `parse_url` (bot/utils.py)

`parse_url` runs `re.search(r"https?://[^\s]+", s)` and returns the matched
text, or `""` when there is no match.  `matchAt` is the regex attempted at
one position: the literal scheme (the optional `s` taken greedily, as the
regex engine does) followed by a nonempty maximal run of non-whitespace
characters.  `searchFrom` scans positions left to right, which is exactly
`re.search`'s leftmost-match rule. -/

def matchAt (l : List Char) : Option (List Char) :=
  if "https://".toList.isPrefixOf l then
    let body := (l.drop 8).takeWhile (fun c => !pySpace c)
    if body ≠ [] then some ("https://".toList ++ body) else none
  else if "http://".toList.isPrefixOf l then
    let body := (l.drop 7).takeWhile (fun c => !pySpace c)
    if body ≠ [] then some ("http://".toList ++ body) else none
  else none

def searchFrom : List Char → Option (List Char)
  | [] => none
  | c :: rest =>
    match matchAt (c :: rest) with
    | some m => some m
    | none => searchFrom rest

def parse_url (s : List Char) : List Char :=
  match searchFrom s with
  | some m => m
  | none => []

example : parse_url "see https://a.b/c and more".toList = "https://a.b/c".toList := by rfl

example : parse_url "no url here".toList = [] := by rfl

/-! ### `docs_to_str` (bot/utils.py)

A langchain `Document` is a piece of page content plus metadata; only the
`page_content` field is consumed by the code under verification. -/

structure Document where
  page_content : List Char
deriving DecidableEq, Repr

/-- Python `"\n".join(xs)`. -/
def joinNl : List (List Char) → List Char
  | [] => []
  | [x] => x
  | x :: y :: rest => x ++ '\n' :: joinNl (y :: rest)

/-- Function `docs_to_str` from bot/utils.py:
`"\n".join([doc.page_content.strip() for doc in docs])`. -/
def docs_to_str (docs : List Document) : List Char :=
  joinNl (docs.map (fun d => pyStrip d.page_content))

example : docs_to_str [⟨"  a  ".toList⟩, ⟨"b".toList⟩] = "a\nb".toList := by rfl

/-! ### `get_message_text` (bot/bot.py)

Telegram `Update`/`Message` objects are modelled with just the fields the
function reads; `text` fields are optional (`None` on e.g. photo messages),
and Python truthiness collapses `None` and `""`. -/

structure ReplyMessage where
  text : Option (List Char)

structure TgMessage where
  text : Option (List Char)
  reply_to_message : Option ReplyMessage

structure Update where
  message : Option TgMessage

/-- Function `get_message_text` from bot/bot.py. -/
def get_message_text (u : Update) : List Char :=
  match u.message with
  | none => []
  | some m =>
    let message_text := match m.text with
      | some t => t
      | none => []
    let reply_text := match m.reply_to_message with
      | none => []
      | some r => match r.text with
        | none => []
        | some t => t
    if reply_text ≠ [] then reply_text ++ '\n' :: message_text else message_text

example :
    get_message_text ⟨some ⟨some "msg".toList, some ⟨some "rep".toList⟩⟩⟩ =
      "rep\nmsg".toList := by rfl

/-! ### `load_url` (bot/loaders/url.py)

The loader modules `pdf.py`, `ptt.py`, `singlefile_html.py`,
`video_transcript.py` and `youtube_transcript.py` are not part of the
sources; following the spec they are acquisition strategies that either
produce text or decline, and are modelled as oracle values in `LoadEnv`.
The network probe of `is_pdf` (an `httpx.head` followed by
`raise_for_status()`) is modelled as an `Except`-valued oracle: `.error`
is a transport failure or an HTTP error status (both raise in Python),
`.ok ct` is a successful response with content-type header `ct`. -/

inductive StrategyTag
  | videoCaptions
  | videoTranscription
  | pdfDocument
  | forumPost
  | genericWebpage
deriving DecidableEq, Repr

inductive LoadErr
  | parseError
  | netError
deriving DecidableEq, Repr

structure LoadEnv where
  /-- Modelled from the spec: result of `load_youtube_transcript` — the
  caption-track text, `[]` when no caption track exists. -/
  youtubeTranscript : List Char
  /-- Modelled from the spec: result of `load_video_transcript` — the
  speech-to-text transcription, `[]` when unavailable. -/
  videoTranscript : List Char
  /-- Outcome of the `httpx.head` probe issued by `is_pdf`. -/
  headContentType : Except Unit (Option (List Char))
  /-- Modelled from the spec: result of `load_pdf`. -/
  pdfText : List Char
  /-- Modelled from the spec: result of `load_ptt`. -/
  pttText : List Char
  /-- Modelled from the spec: result of `load_singlefile_html`. -/
  htmlText : List Char

/-- Function `is_pdf` from bot/loaders/url.py: issue the head request (propagating
its failure), then compare the declared content type with
`"application/pdf"`. -/
def is_pdf (env : LoadEnv) : Except Unit Bool :=
  match env.headContentType with
  | .error e => .error e
  | .ok ct => .ok (ct = some "application/pdf".toList)

/-- Function `is_youtube_url` from bot/loaders/url.py. -/
def is_youtube_url (url : List Char) : Bool :=
  "https://www.youtube.com".toList.isPrefixOf url ||
    "https://youtu.be".toList.isPrefixOf url ||
    "https://m.youtube.com".toList.isPrefixOf url

/-- The tail of `load_url` after the YouTube branch has been passed:
`is_pdf` probe, then the PTT check, then the singlefile fallback.  Reaching
this code always issues the network probe. -/
def loadAfterVideo (env : LoadEnv) (url : List Char) : Except LoadErr (StrategyTag × List Char) :=
  match is_pdf env with
  | .error _ => .error .netError
  | .ok true => .ok (.pdfDocument, env.pdfText)
  | .ok false =>
    if "https://www.ptt.cc/bbs".toList.isPrefixOf url then
      .ok (.forumPost, env.pttText)
    else
      .ok (.genericWebpage, env.htmlText)

/-- Function `load_url` from bot/loaders/url.py.  The result is paired with a `Bool`
recording whether the `is_pdf` network probe was issued during the call; the
`StrategyTag` records which acquisition strategy produced the text. -/
def load_url (env : LoadEnv) (url : List Char) :
    Except LoadErr (StrategyTag × List Char) × Bool :=
  match replace_domain url with
  | .error _ => (.error .parseError, false)
  | .ok u =>
    if is_youtube_url u then
      if env.youtubeTranscript ≠ [] then
        (.ok (.videoCaptions, env.youtubeTranscript), false)
      else if env.videoTranscript ≠ [] then
        (.ok (.videoTranscription, env.videoTranscript), false)
      else
        (loadAfterVideo env u, true)
    else
      (loadAfterVideo env u, true)

/-! ### `download` and `load_document` (bot/utils.py)

`download` writes the response body to
`tempfile.NamedTemporaryFile(delete=False, suffix=suffix)`: with
`delete=False` the file is closed but *not* removed when the `with` block
exits, so the model adds the file to the file-system state and nothing ever
removes it (no call in bot/utils.py deletes temp files).  `FS.files` is the
set of temp files currently on disk, `FS.counter` makes fresh names. -/

structure FS where
  counter : Nat
  files : List (List Char)
deriving DecidableEq, Repr

def tempName (n : Nat) (suffix : List Char) : List Char :=
  "/tmp/tmp".toList ++ (Nat.toDigits 10 n) ++ suffix

structure DocEnv where
  /-- Result of `YoutubeLoader.from_youtube_url(...).load()` under
  `contextlib.suppress(ValueError)`: `some docs` when the loader applies and
  loads, `none` when it raises `ValueError` (suppressed; for non-YouTube
  URLs `from_youtube_url` cannot extract a video id and raises). -/
  youtubeDocs : Option (List Document)
  /-- Outcome of the `httpx.get` in `download` (after `raise_for_status`):
  `.error` is a transport failure or HTTP error status, `.ok ct` a
  successful response with content-type header `ct`. -/
  getContentType : Except Unit (Option (List Char))
  /-- Modelled from the spec: result of `PyPDFLoader(f).load()`. -/
  pdfDocs : List Document
  /-- Modelled from the spec: result of `BSHTMLLoader(f).load()`. -/
  htmlDocs : List Document

/-- Function `download` from bot/utils.py: fetch the URL; on success write the body
to a named temporary file (suffix `.pdf` when the response declares a PDF
content type) and return its name.  With `delete=False` the file stays on
disk. -/
def download (env : DocEnv) (fs : FS) : Except Unit (List Char) × FS :=
  match env.getContentType with
  | .error e => (.error e, fs)
  | .ok ct =>
    let suffix := if ct = some "application/pdf".toList then ".pdf".toList else []
    let name := tempName fs.counter suffix
    (.ok name, ⟨fs.counter + 1, fs.files ++ [name]⟩)

/-- Function `load_document` from bot/utils.py: try the YouTube loader under
`suppress(ValueError)`, then `fix_twitter`, then `download`, then pick the
PDF or HTML loader by the temp file's suffix. -/
def load_document (env : DocEnv) (fs : FS) (url : List Char) :
    Except LoadErr (List Char) × FS :=
  match env.youtubeDocs with
  | some docs => (.ok (docs_to_str docs), fs)
  | none =>
    match fix_twitter url with
    | .error _ => (.error .parseError, fs)
    | .ok _ =>
      match download env fs with
      | (.error _, fs') => (.error .netError, fs')
      | (.ok f, fs') =>
        if ".pdf".toList.isSuffixOf f then
          (.ok (docs_to_str env.pdfDocs), fs')
        else
          (.ok (docs_to_str env.htmlDocs), fs')

/-! ### Helper lemmas for the loader pipeline -/

/-- Function `loadAfterVideo` only ever succeeds through the PDF, forum or generic
strategies, never through the two video paths. -/
theorem loadAfterVideo_tag (env : LoadEnv) (u : List Char) (t : StrategyTag)
    (s : List Char) (h : loadAfterVideo env u = .ok (t, s)) :
    t = .pdfDocument ∨ t = .forumPost ∨ t = .genericWebpage := by
  rcases hp : is_pdf env with e | b
  · simp [loadAfterVideo, hp] at h
  · cases b
    · simp only [loadAfterVideo, hp] at h
      split at h <;>
        (simp only [Except.ok.injEq, Prod.mk.injEq] at h; simp [← h.1])
    · simp only [loadAfterVideo, hp] at h
      simp only [Except.ok.injEq, Prod.mk.injEq] at h
      simp [← h.1]

/-- Function `joinNl` of two or more pieces contains the separating newline, so it is
never empty. -/
theorem joinNl_cons_cons_ne_nil (x y : List Char) (rest : List (List Char)) :
    joinNl (x :: y :: rest) ≠ [] := by
  simp [joinNl]

/-! ### Claim C2: the document reducer -/

/-- C2 counterexample: the claim says fragments that are empty after
trimming are discarded and an all-whitespace fragment sequence reduces to
the empty string; but `docs_to_str` on two all-whitespace fragments yields
`"\n"`, not `""` — empty trimmed fragments are kept and still get a
separating newline. -/
theorem claim2_counterexample :
    docs_to_str [⟨" ".toList⟩, ⟨" ".toList⟩] = ['\n'] ∧
      ('\n' :: [] : List Char) ≠ [] := by
  exact ⟨by rfl, by decide⟩

/-- C2 (amended): the reducer trims each fragment's text and joins *all*
trimmed fragments — including those that trimmed to empty — with exactly one
newline between consecutive fragments, preserving order; the result is
empty exactly when the sequence is empty or is a single fragment that trims
to empty. -/
theorem claim2_amended_reduce (docs : List Document) :
    (docs_to_str docs = [] ↔
      docs = [] ∨ ∃ d, docs = [d] ∧ pyStrip d.page_content = []) ∧
    (∀ d rest, rest ≠ [] →
      docs_to_str (d :: rest) = pyStrip d.page_content ++ '\n' :: docs_to_str rest) ∧
    (∀ d, docs_to_str [d] = pyStrip d.page_content) := by
  refine ⟨?_, ?_, fun d => rfl⟩
  · match docs with
    | [] => simp [docs_to_str, joinNl]
    | [d] => simp [docs_to_str, joinNl]
    | d :: e :: rest =>
      constructor
      · intro h
        exact absurd h (joinNl_cons_cons_ne_nil _ _ _)
      · rintro (h | ⟨d', hd, h⟩)
        · exact absurd h (by simp)
        · exact absurd hd (by simp)
  · intro d rest hrest
    match rest with
    | [] => exact absurd rfl hrest
    | e :: rest' => rfl

/-- Witness for the amended C2 theorem at a concrete fragment list. -/
theorem claim2_amended_reduce_witness :
    docs_to_str [⟨" a ".toList⟩, ⟨"b".toList⟩] =
      pyStrip " a ".toList ++ '\n' :: docs_to_str [⟨"b".toList⟩] :=
  (claim2_amended_reduce [⟨" a ".toList⟩, ⟨"b".toList⟩]).2.1
    ⟨" a ".toList⟩ [⟨"b".toList⟩] (by decide)

/-! ### Claim C3: concatenation order of argument and replied text -/

/-- C3 counterexample: the claim says the raw text is the argument text
first, then the replied text; `get_message_text` produces the replied text
first (`f"{reply_text}\n{message_text}"`). -/
theorem claim3_counterexample :
    get_message_text ⟨some ⟨some "arg".toList, some ⟨some "rep".toList⟩⟩⟩ =
      "rep\narg".toList ∧
    "rep\narg".toList ≠ "arg\nrep".toList := by
  exact ⟨by rfl, by decide⟩

/-- C3 (amended): the raw text is the *replied* text first, then the
argument text, joined by a single newline; when no replied text is present
(no replied-to message, its text missing, or empty) the raw text is exactly
the argument text. -/
theorem claim3_amended_order (arg rep : List Char) (h : rep ≠ []) :
    get_message_text ⟨some ⟨some arg, some ⟨some rep⟩⟩⟩ = rep ++ '\n' :: arg ∧
    get_message_text ⟨some ⟨some arg, none⟩⟩ = arg ∧
    get_message_text ⟨some ⟨some arg, some ⟨none⟩⟩⟩ = arg ∧
    get_message_text ⟨some ⟨some arg, some ⟨some []⟩⟩⟩ = arg := by
  refine ⟨?_, rfl, rfl, rfl⟩
  simp [get_message_text, h]

/-- Witness for the amended C3 theorem at concrete texts. -/
theorem claim3_amended_order_witness :
    get_message_text ⟨some ⟨some "arg".toList, some ⟨some "rep".toList⟩⟩⟩ =
      "rep".toList ++ '\n' :: "arg".toList :=
  (claim3_amended_order "arg".toList "rep".toList (by decide)).1

/-! ### Claim C6: probe failure propagation -/

/-- C6 counterexample: the claim says any network failure during the
`is_pdf` content-type probe is swallowed and classification proceeds; but
`is_pdf` calls `raise_for_status()` with no exception handler anywhere in
`load_url`, so a failing probe aborts the whole call with an error instead
of falling through to the forum/generic strategies. -/
theorem claim6_counterexample :
    (load_url ⟨[], [], .error (), "PDF".toList, "PTT".toList, "HTML".toList⟩
        "https://example.com/article".toList).1 = .error .netError := by
  rfl

/-- C6 (amended): a network failure during the probe is *propagated* to the
caller as an error whenever the probe is reached (i.e. whenever the video
platform strategy did not already return); it is not swallowed. -/
theorem claim6_amended_probe_error (env : LoadEnv) (url u : List Char)
    (h : replace_domain url = .ok u)
    (hv : is_youtube_url u = false ∨
      (env.youtubeTranscript = [] ∧ env.videoTranscript = []))
    (he : env.headContentType = .error ()) :
    (load_url env url).1 = .error .netError := by
  have hafter : loadAfterVideo env u = .error .netError := by
    simp [loadAfterVideo, is_pdf, he]
  rcases hv with hv | ⟨h1, h2⟩
  · simp [load_url, h, hv, hafter]
  · simp [load_url, h, h1, h2, hafter]

/-- Witness for the amended C6 theorem at a concrete environment. -/
theorem claim6_amended_probe_error_witness :
    (load_url ⟨[], [], .error (), [], [], []⟩
        "https://other.example/page".toList).1 = .error .netError :=
  claim6_amended_probe_error ⟨[], [], .error (), [], [], []⟩
    "https://other.example/page".toList "https://other.example/page".toList
    (by rfl) (Or.inl (by decide)) rfl

/-! ### Claim C9: temp-file lifetime -/

/-- C9 counterexample: the claim says every temporary file is deleted on
every exit path of the acquisition call; but `download` creates the file
with `NamedTemporaryFile(delete=False)` and no code in `load_document`
deletes it, so after a successful PDF acquisition the temp file is still on
disk. -/
theorem claim9_counterexample :
    (load_document
        ⟨none, .ok (some "application/pdf".toList), [⟨"page one".toList⟩], []⟩
        ⟨0, []⟩ "https://example.com/paper".toList).2.files =
      ["/tmp/tmp0.pdf".toList] ∧
    (["/tmp/tmp0.pdf".toList] : List (List Char)) ≠ [] := by
  exact ⟨by rfl, by decide⟩

/-- C9 (amended): the temporary file created by `download` (with
`delete=False`) is *not* released: on every successful download it is still
on disk when `load_document` returns, whatever loader branch ran; when the
download itself fails no file is created and the file system is unchanged. -/
theorem claim9_amended_tempfile (env : DocEnv) (fs : FS) (url v : List Char)
    (hy : env.youtubeDocs = none) (hf : fix_twitter url = .ok v) :
    (∀ ct, env.getContentType = .ok ct →
      (load_document env fs url).2.files =
        fs.files ++ [tempName fs.counter
          (if ct = some "application/pdf".toList then ".pdf".toList else [])]) ∧
    (env.getContentType = .error () → (load_document env fs url).2 = fs) := by
  constructor
  · intro ct hct
    simp only [load_document, hy, hf, download, hct]
    split <;> (split <;> rfl)
  · intro he
    simp [load_document, hy, hf, download, he]

/-- Witness for the amended C9 theorem at a concrete environment. -/
theorem claim9_amended_tempfile_witness :
    (load_document ⟨none, .ok (some "text/html".toList), [], [⟨"hi".toList⟩]⟩
        ⟨3, ["/tmp/tmp2".toList]⟩ "https://example.com/page".toList).2.files =
      ["/tmp/tmp2".toList] ++ [tempName 3 (if (some "text/html".toList : Option (List Char)) = some "application/pdf".toList then ".pdf".toList else [])] :=
  (claim9_amended_tempfile ⟨none, .ok (some "text/html".toList), [], [⟨"hi".toList⟩]⟩
      ⟨3, ["/tmp/tmp2".toList]⟩ "https://example.com/page".toList
      "https://example.com/page".toList rfl (by rfl)).1
    (some "text/html".toList) rfl

/-! ### Claim C1: classification priority order -/

/-- C1 counterexample: the claim says both pure string checks (video and
forum) run before the network probe; but for a PTT forum URL whose probe
reports a PDF content type, `load_url` issues the probe (second component
`true`) and returns via the PDF strategy — the forum check is only
evaluated after the probe, so the probe outranks the forum pattern. -/
theorem claim1_counterexample :
    "https://www.ptt.cc/bbs".toList.isPrefixOf
        "https://www.ptt.cc/bbs/Gossiping/M.1.html".toList = true ∧
    load_url ⟨[], [], .ok (some "application/pdf".toList), "PDFTEXT".toList,
        "PTTTEXT".toList, "HTMLTEXT".toList⟩
        "https://www.ptt.cc/bbs/Gossiping/M.1.html".toList =
      (.ok (.pdfDocument, "PDFTEXT".toList), true) := by
  exact ⟨by decide, by rfl⟩

/-- C1 (amended): the actual priority order is video-platform check, PDF
content-type probe, forum-post check, generic fallback.  The video check (a
pure string match) runs before the probe and a successful video strategy
suppresses the probe; in all other cases the probe is issued, a PDF content
type wins over the forum pattern, and the generic strategy is chosen only
when the video strategy declined, the probe reported non-PDF, and the forum
pattern did not match. -/
theorem claim1_amended_order (env : LoadEnv) (url u : List Char)
    (h : replace_domain url = .ok u) :
    ((is_youtube_url u = true ∧ env.youtubeTranscript ≠ []) →
      load_url env url = (.ok (.videoCaptions, env.youtubeTranscript), false)) ∧
    ((is_youtube_url u = true ∧ env.youtubeTranscript = [] ∧
        env.videoTranscript ≠ []) →
      load_url env url = (.ok (.videoTranscription, env.videoTranscript), false)) ∧
    ((is_youtube_url u = false ∨
        (env.youtubeTranscript = [] ∧ env.videoTranscript = [])) →
      (load_url env url).2 = true ∧
      ∀ ct, env.headContentType = .ok ct →
        (ct = some "application/pdf".toList →
          (load_url env url).1 = .ok (.pdfDocument, env.pdfText)) ∧
        (ct ≠ some "application/pdf".toList →
          "https://www.ptt.cc/bbs".toList.isPrefixOf u = true →
          (load_url env url).1 = .ok (.forumPost, env.pttText)) ∧
        (ct ≠ some "application/pdf".toList →
          "https://www.ptt.cc/bbs".toList.isPrefixOf u = false →
          (load_url env url).1 = .ok (.genericWebpage, env.htmlText))) := by
  have hload : ∀ hv : is_youtube_url u = false ∨
      (env.youtubeTranscript = [] ∧ env.videoTranscript = []),
      load_url env url = (loadAfterVideo env u, true) := by
    intro hv
    rcases hv with hv | ⟨h1, h2⟩
    · simp [load_url, h, hv]
    · simp [load_url, h, h1, h2]
  refine ⟨?_, ?_, ?_⟩
  · rintro ⟨hy, ht⟩
    simp [load_url, h, hy, ht]
  · rintro ⟨hy, ht1, ht2⟩
    simp [load_url, h, hy, ht1, ht2]
  · intro hv
    rw [hload hv]
    refine ⟨rfl, ?_⟩
    intro ct hct
    refine ⟨?_, ?_, ?_⟩
    · intro hpdf
      have hp : is_pdf env = .ok true := by simp [is_pdf, hct, hpdf]
      simp [loadAfterVideo, hp]
    · intro hpdf hptt
      have hp : is_pdf env = .ok false := by
        unfold is_pdf
        rw [hct]
        exact congrArg Except.ok (decide_eq_false hpdf)
      simp only [loadAfterVideo, hp]
      rw [if_pos hptt]
    · intro hpdf hptt
      have hp : is_pdf env = .ok false := by
        unfold is_pdf
        rw [hct]
        exact congrArg Except.ok (decide_eq_false hpdf)
      have hneg : ¬ ("https://www.ptt.cc/bbs".toList.isPrefixOf u = true) := by
        rw [hptt]
        exact Bool.false_ne_true
      simp only [loadAfterVideo, hp]
      rw [if_neg hneg]

/-- Witness for the amended C1 theorem: a non-video, non-PDF, non-forum URL
falls through to the generic strategy with the probe issued. -/
theorem claim1_amended_order_witness :
    (load_url ⟨[], [], .ok (some "text/html".toList), [], [], "HTML".toList⟩
        "https://news.example/story".toList).2 = true ∧
    (load_url ⟨[], [], .ok (some "text/html".toList), [], [], "HTML".toList⟩
        "https://news.example/story".toList).1 =
      .ok (.genericWebpage, "HTML".toList) := by
  have h := (claim1_amended_order
      ⟨[], [], .ok (some "text/html".toList), [], [], "HTML".toList⟩
      "https://news.example/story".toList "https://news.example/story".toList
      (by rfl)).2.2 (Or.inl (by decide))
  exact ⟨h.1, (h.2 (some "text/html".toList) rfl).2.2 (by decide) (by decide)⟩

/-! ### Claim C5: video strategy internal fallback -/

/-- C5: for a video-platform URL the caption track is tried first and its
text returned on success; with no captions the stream-transcription
fallback is tried and returned on success; when both are unavailable the
video strategy declines — `load_url`'s result can then only come from the
PDF, forum or generic strategies (or be an error), never from a video
path. -/
theorem claim5_video_fallback (env : LoadEnv) (url u : List Char)
    (h : replace_domain url = .ok u) (hy : is_youtube_url u = true) :
    (env.youtubeTranscript ≠ [] →
      load_url env url = (.ok (.videoCaptions, env.youtubeTranscript), false)) ∧
    (env.youtubeTranscript = [] → env.videoTranscript ≠ [] →
      load_url env url = (.ok (.videoTranscription, env.videoTranscript), false)) ∧
    (env.youtubeTranscript = [] → env.videoTranscript = [] →
      ∀ t s, (load_url env url).1 = .ok (t, s) →
        t = .pdfDocument ∨ t = .forumPost ∨ t = .genericWebpage) := by
  refine ⟨?_, ?_, ?_⟩
  · intro ht
    simp [load_url, h, hy, ht]
  · intro ht1 ht2
    simp [load_url, h, hy, ht1, ht2]
  · intro ht1 ht2 t s hts
    have : load_url env url = (loadAfterVideo env u, true) := by
      simp [load_url, h, hy, ht1, ht2]
    rw [this] at hts
    exact loadAfterVideo_tag env u t s hts

/-- Witness for C5: a YouTube URL with an available caption track returns
that caption text via the captions path. -/
theorem claim5_video_fallback_witness :
    load_url ⟨"CAPTIONS".toList, "WHISPER".toList, .ok none, [], [], []⟩
        "https://youtu.be/abc123".toList =
      (.ok (.videoCaptions, "CAPTIONS".toList), false) :=
  (claim5_video_fallback ⟨"CAPTIONS".toList, "WHISPER".toList, .ok none, [], [], []⟩
      "https://youtu.be/abc123".toList "https://youtu.be/abc123".toList
      (by rfl) (by decide)).1 (by decide)

/-! ### Claim C4: the URL extractor -/

theorem searchFrom_cons (c : Char) (rest : List Char) :
    searchFrom (c :: rest) =
      match matchAt (c :: rest) with
      | some m => some m
      | none => searchFrom rest := rfl

/-- Function `searchFrom` finds nothing exactly when the pattern matches at no
position. -/
theorem searchFrom_none_iff (l : List Char) :
    searchFrom l = none ↔ ∀ i, matchAt (l.drop i) = none := by
  induction l with
  | nil =>
    constructor
    · intro _ i
      rw [List.drop_nil]
      rfl
    · intro _
      rfl
  | cons c rest ih =>
    constructor
    · intro h i
      rw [searchFrom_cons] at h
      cases hm : matchAt (c :: rest) with
      | some m =>
        simp only [hm] at h
        exact Option.noConfusion h
      | none =>
        simp only [hm] at h
        cases i with
        | zero => exact hm
        | succ i' =>
          rw [List.drop_succ_cons]
          exact ih.mp h i'
    · intro h
      rw [searchFrom_cons]
      have h0 : matchAt (c :: rest) = none := by
        have := h 0
        rwa [List.drop_zero] at this
      simp only [h0]
      exact ih.mpr fun i => by
        have := h (i + 1)
        rwa [List.drop_succ_cons] at this

/-- A successful `searchFrom` is the leftmost match. -/
theorem searchFrom_some (l m : List Char) (h : searchFrom l = some m) :
    ∃ i, matchAt (l.drop i) = some m ∧ ∀ j, j < i → matchAt (l.drop j) = none := by
  induction l with
  | nil => exact Option.noConfusion h
  | cons c rest ih =>
    rw [searchFrom_cons] at h
    cases hm : matchAt (c :: rest) with
    | some m' =>
      simp only [hm, Option.some.injEq] at h
      refine ⟨0, ?_, ?_⟩
      · rw [List.drop_zero, hm, h]
      · intro j hj
        omega
    | none =>
      simp only [hm] at h
      obtain ⟨i, h1, h2⟩ := ih h
      refine ⟨i + 1, ?_, ?_⟩
      · rwa [List.drop_succ_cons]
      · intro j hj
        cases j with
        | zero => rwa [List.drop_zero]
        | succ j' =>
          rw [List.drop_succ_cons]
          exact h2 j' (by omega)

/-- The text matched at a position is the literal scheme followed by a
nonempty run of non-whitespace characters, and is a prefix of the text at
that position. -/
theorem matchAt_shape (l m : List Char) (h : matchAt l = some m) :
    ∃ body, body ≠ [] ∧ body.all (fun c => !pySpace c) = true ∧
      (m = "https://".toList ++ body ∨ m = "http://".toList ++ body) ∧
      m <+: l := by
  unfold matchAt at h
  by_cases h8 : "https://".toList.isPrefixOf l = true
  · rw [if_pos h8] at h
    by_cases hb : (l.drop 8).takeWhile (fun c => !pySpace c) ≠ []
    · rw [if_pos hb] at h
      injection h with h'
      refine ⟨(l.drop 8).takeWhile (fun c => !pySpace c), hb, ?_, Or.inl h'.symm, ?_⟩
      · rw [List.all_eq_true]
        intro x hx
        simpa using List.mem_takeWhile_imp (p := fun c => !pySpace c) hx
      · obtain ⟨t, ht⟩ := List.isPrefixOf_iff_prefix.mp h8
        have hdrop : l.drop 8 = t := by
          rw [← ht, List.drop_left' (by rfl)]
        obtain ⟨w, hw⟩ := List.takeWhile_prefix (l := t) (fun c => !pySpace c)
        refine ⟨w, ?_⟩
        rw [← h', hdrop, List.append_assoc, hw, ht]
    · rw [if_neg hb] at h
      exact Option.noConfusion h
  · rw [if_neg h8] at h
    by_cases h7 : "http://".toList.isPrefixOf l = true
    · rw [if_pos h7] at h
      by_cases hb : (l.drop 7).takeWhile (fun c => !pySpace c) ≠ []
      · rw [if_pos hb] at h
        injection h with h'
        refine ⟨(l.drop 7).takeWhile (fun c => !pySpace c), hb, ?_, Or.inr h'.symm, ?_⟩
        · rw [List.all_eq_true]
          intro x hx
          simpa using List.mem_takeWhile_imp (p := fun c => !pySpace c) hx
        · obtain ⟨t, ht⟩ := List.isPrefixOf_iff_prefix.mp h7
          have hdrop : l.drop 7 = t := by
            rw [← ht, List.drop_left' (by rfl)]
          obtain ⟨w, hw⟩ := List.takeWhile_prefix (l := t) (fun c => !pySpace c)
          refine ⟨w, ?_⟩
          rw [← h', hdrop, List.append_assoc, hw, ht]
      · rw [if_neg hb] at h
        exact Option.noConfusion h
    · rw [if_neg h7] at h
      exact Option.noConfusion h

/-- C4: `parse_url` is total (in particular it returns `""` on the empty
string rather than failing), it returns `""` exactly when the pattern
`https?://[^\s]+` matches nowhere, a nonempty result is the leftmost match,
and every match is the scheme (`https://` or `http://`) followed by a
nonempty maximal run of non-whitespace characters taken from the input. -/
theorem claim4_extractor (l : List Char) :
    parse_url ([] : List Char) = [] ∧
    (parse_url l = [] ↔ ∀ i, matchAt (l.drop i) = none) ∧
    (parse_url l ≠ [] →
      ∃ i, matchAt (l.drop i) = some (parse_url l) ∧
        ∀ j, j < i → matchAt (l.drop j) = none) ∧
    (∀ m, matchAt l = some m →
      ∃ body, body ≠ [] ∧ body.all (fun c => !pySpace c) = true ∧
        (m = "https://".toList ++ body ∨ m = "http://".toList ++ body) ∧
        m.isPrefixOf l = true) := by
  have hne : ∀ m, searchFrom l = some m → m ≠ [] := by
    intro m hm
    obtain ⟨i, h1, _⟩ := searchFrom_some l m hm
    obtain ⟨body, hb, _, hshape, _⟩ := matchAt_shape _ m h1
    rcases hshape with rfl | rfl <;> simp
  refine ⟨rfl, ?_, ?_, ?_⟩
  · constructor
    · intro hp
      cases hs : searchFrom l with
      | none => exact (searchFrom_none_iff l).mp hs
      | some m =>
        exfalso
        apply hne m hs
        rw [← hp]
        simp [parse_url, hs]
    · intro h
      have : searchFrom l = none := (searchFrom_none_iff l).mpr h
      simp [parse_url, this]
  · intro hp
    cases hs : searchFrom l with
    | none =>
      exfalso
      exact hp (by simp [parse_url, hs])
    | some m =>
      have hm : parse_url l = m := by simp [parse_url, hs]
      rw [hm]
      exact searchFrom_some l m hs
  · intro m hm
    obtain ⟨body, h1, h2, h3, h4⟩ := matchAt_shape l m hm
    exact ⟨body, h1, h2, h3, List.isPrefixOf_iff_prefix.mpr h4⟩

/-- Witness for C4: on a concrete text the extractor's nonempty result is
the leftmost match. -/
theorem claim4_extractor_witness :
    ∃ i, matchAt ("go https://ex.com/a now".toList.drop i) =
        some (parse_url "go https://ex.com/a now".toList) ∧
      ∀ j, j < i → matchAt ("go https://ex.com/a now".toList.drop j) = none :=
  (claim4_extractor "go https://ex.com/a now".toList).2.2.1 (by decide)

/-! ### Character lemmas for the `urllib.parse` embedding -/

theorem char_le_iff_toNat {a b : Char} : a ≤ b ↔ a.toNat ≤ b.toNat := by
  rw [Char.le_def, UInt32.le_def, BitVec.le_def]
  exact Iff.rfl

theorem char_eq_iff_toNat {a b : Char} : a = b ↔ a.toNat = b.toNat :=
  ⟨fun h => congrArg _ h, fun h => Char.ext (UInt32.ext h)⟩

theorem toNat_ofNat_valid (n : Nat) (h : n.isValidChar) : (Char.ofNat n).toNat = n := by
  simp [Char.ofNat, h, Char.ofNatAux, Char.toNat]
  rfl

theorem toLower_eq_of_lower (c : Char) (h : ¬(65 ≤ c.toNat ∧ c.toNat ≤ 90)) :
    c.toLower = c := by
  simp [Char.toLower, h]

theorem toNat_toLower_of_upper (c : Char) (h : 65 ≤ c.toNat ∧ c.toNat ≤ 90) :
    c.toLower.toNat = c.toNat + 32 := by
  rw [Char.toLower, if_pos h]
  exact toNat_ofNat_valid _ (Or.inl (by omega))

/-- Function `Char.toLower` is idempotent. -/
theorem toLower_idem (c : Char) : c.toLower.toLower = c.toLower := by
  by_cases h : 65 ≤ c.toNat ∧ c.toNat ≤ 90
  · have h2 : c.toLower.toNat = c.toNat + 32 := toNat_toLower_of_upper c h
    apply toLower_eq_of_lower
    omega
  · rw [toLower_eq_of_lower c h]
    exact toLower_eq_of_lower c h

theorem schemeChar_iff (c : Char) : schemeChar c = true ↔
    ((97 ≤ c.toNat ∧ c.toNat ≤ 122) ∨ (65 ≤ c.toNat ∧ c.toNat ≤ 90) ∨
     (48 ≤ c.toNat ∧ c.toNat ≤ 57) ∨ c.toNat = 43 ∨ c.toNat = 45 ∨ c.toNat = 46) := by
  simp only [schemeChar, Bool.or_eq_true, Bool.and_eq_true, decide_eq_true_eq,
    char_le_iff_toNat, char_eq_iff_toNat,
    show ('a' : Char).toNat = 97 from rfl, show ('z' : Char).toNat = 122 from rfl,
    show ('A' : Char).toNat = 65 from rfl, show ('Z' : Char).toNat = 90 from rfl,
    show ('0' : Char).toNat = 48 from rfl, show ('9' : Char).toNat = 57 from rfl,
    show ('+' : Char).toNat = 43 from rfl, show ('-' : Char).toNat = 45 from rfl,
    show ('.' : Char).toNat = 46 from rfl]
  omega

/-- Lowercasing preserves scheme characters. -/
theorem schemeChar_toLower (c : Char) (h : schemeChar c = true) :
    schemeChar c.toLower = true := by
  by_cases hu : 65 ≤ c.toNat ∧ c.toNat ≤ 90
  · have h2 : c.toLower.toNat = c.toNat + 32 := toNat_toLower_of_upper c hu
    rw [schemeChar_iff] at h ⊢
    omega
  · rwa [toLower_eq_of_lower c hu]

/-- A scheme character is none of the URL delimiters and none of the
removed bytes. -/
theorem schemeChar_props (c : Char) (h : schemeChar c = true) :
    c ≠ ':' ∧ c ≠ '/' ∧ c ≠ '?' ∧ c ≠ '#' ∧ keptByte c = true := by
  rw [schemeChar_iff] at h
  refine ⟨?_, ?_, ?_, ?_, ?_⟩
  · intro hc; rw [char_eq_iff_toNat] at hc
    revert hc; show ¬(c.toNat = 58); omega
  · intro hc; rw [char_eq_iff_toNat] at hc
    revert hc; show ¬(c.toNat = 47); omega
  · intro hc; rw [char_eq_iff_toNat] at hc
    revert hc; show ¬(c.toNat = 63); omega
  · intro hc; rw [char_eq_iff_toNat] at hc
    revert hc; show ¬(c.toNat = 35); omega
  · simp only [keptByte, Bool.or_eq_true, Bool.not_eq_true', decide_eq_true_eq,
      Bool.or_eq_false_iff, decide_eq_false_iff_not, char_eq_iff_toNat,
      show ('\t' : Char).toNat = 9 from rfl, show ('\r' : Char).toNat = 13 from rfl,
      show ('\n' : Char).toNat = 10 from rfl]
    omega

/-! ### List lemmas for the `urllib.parse` embedding -/

/-- Function `takeWhile`/`dropWhile` on an append where all of the first part
satisfies the predicate and the second part is empty or starts with a
failing element. -/
theorem tw_append (p : Char → Bool) (a b : List Char) (ha : ∀ c ∈ a, p c = true)
    (hb : b = [] ∨ ∃ c t, b = c :: t ∧ p c = false) :
    (a ++ b).takeWhile p = a ∧ (a ++ b).dropWhile p = b := by
  induction a with
  | nil =>
    rcases hb with rfl | ⟨c, t, rfl, hc⟩
    · simp
    · simp [List.takeWhile_cons, List.dropWhile_cons, hc]
  | cons x xs ih =>
    have hx : p x = true := ha x (by simp)
    have h2 := ih fun c hc => ha c (by simp [hc])
    simp [List.takeWhile_cons, List.dropWhile_cons, hx, h2.1, h2.2]

/-- Function `findIdx?` for the colon on a colon-free part followed by a colon. -/
theorem findIdx_colon_append (a b : List Char) (h : ∀ x ∈ a, x ≠ ':') :
    (a ++ ':' :: b).findIdx? (fun x => x = ':') = some a.length := by
  induction a with
  | nil => simp
  | cons y ys ih =>
    have hy : y ≠ ':' := h y (by simp)
    have h2 := ih fun x hx => h x (by simp [hx])
    simp [List.findIdx?_cons, hy, h2]

/-- Splitting on a character absent from the list. -/
theorem splitOnFirst_of_not_mem (c : Char) (l : List Char) (h : ∀ x ∈ l, x ≠ c) :
    splitOnFirst c l = (l, []) := by
  unfold splitOnFirst
  have h2 := tw_append (fun x => x != c) l [] (fun x hx => by simp [h x hx]) (Or.inl rfl)
  rw [List.append_nil] at h2
  rw [h2.1, h2.2]
  rfl

/-- Splitting on the first occurrence of a character. -/
theorem splitOnFirst_append (c : Char) (a b : List Char) (h : ∀ x ∈ a, x ≠ c) :
    splitOnFirst c (a ++ c :: b) = (a, b) := by
  unfold splitOnFirst
  have h2 := tw_append (fun x => x != c) a (c :: b)
    (fun x hx => by simp [h x hx]) (Or.inr ⟨c, b, rfl, by simp⟩)
  rw [h2.1, h2.2]
  simp


/-- Function `splitScheme` does not fire on text starting with `/`. -/
theorem splitScheme_slash (l' : List Char) : splitScheme ('/' :: l') = ([], '/' :: l') := by
  unfold splitScheme
  split
  next i hf =>
    rw [if_neg]
    rintro ⟨hi, hall⟩
    cases i with
    | zero => omega
    | succ i' =>
      rw [List.take_succ_cons, List.all_cons] at hall
      have : schemeChar '/' = true := ((Bool.and_eq_true _ _).mp hall).1
      exact absurd this (by decide)
  next hf => rfl

/-- Function `splitScheme` on a valid scheme followed by a colon lowercases the
scheme and drops the colon. -/
theorem splitScheme_scheme (s t : List Char) (hne : s ≠ [])
    (hall : s.all schemeChar = true) :
    splitScheme (s ++ ':' :: t) = (s.map Char.toLower, t) := by
  have hxc : ∀ x ∈ s, x ≠ ':' := by
    intro x hx
    exact (schemeChar_props x (List.all_eq_true.mp hall x hx)).1
  unfold splitScheme
  simp only [findIdx_colon_append s t hxc]
  have hcond : 0 < s.length ∧ ((s ++ ':' :: t).take s.length).all schemeChar = true := by
    constructor
    · exact List.length_pos.mpr hne
    · rw [List.take_left]
      exact hall
  rw [if_pos hcond, List.take_left]
  have hdrop : (s ++ ':' :: t).drop (s.length + 1) = t := by
    rw [show s ++ ':' :: t = (s ++ [':']) ++ t by simp]
    rw [List.drop_left' (by simp)]
  rw [hdrop]

/-- Invariants of `splitScheme`: the scheme is made of scheme characters,
is already lowercase, and the rest is a sub-collection of the input. -/
theorem splitScheme_inv (l : List Char) :
    (splitScheme l).1.all schemeChar = true ∧
    (splitScheme l).1.map Char.toLower = (splitScheme l).1 ∧
    ∀ x ∈ (splitScheme l).2, x ∈ l := by
  unfold splitScheme
  split
  next i hf =>
    split
    next hc =>
      refine ⟨?_, ?_, ?_⟩
      · rw [List.all_eq_true]
        intro x hx
        rw [List.mem_map] at hx
        obtain ⟨y, hy, rfl⟩ := hx
        exact schemeChar_toLower y (List.all_eq_true.mp hc.2 y hy)
      · rw [List.map_map]
        exact List.map_congr_left fun a _ => toLower_idem a
      · intro x hx
        exact List.mem_of_mem_drop hx
    next hc => exact ⟨rfl, rfl, fun x hx => hx⟩
  next hf => exact ⟨rfl, rfl, fun x hx => hx⟩

/-- Function `dropWhile` for "not this character" on a list containing the character
starts with that character. -/
theorem dropWhile_mem_cons (c : Char) (l : List Char) (hx : c ∈ l) :
    ∃ t, l.dropWhile (fun x => x != c) = c :: t := by
  induction l with
  | nil => cases hx
  | cons y ys ih =>
    by_cases hy : y = c
    · subst hy
      exact ⟨ys, by simp [List.dropWhile_cons]⟩
    · have hmem : c ∈ ys := by
        cases List.mem_cons.mp hx with
        | inl h => exact absurd h.symm hy
        | inr h => exact h
      obtain ⟨t, ht⟩ := ih hmem
      refine ⟨t, ?_⟩
      rw [List.dropWhile_cons, if_pos (by simp [hy])]
      exact ht

/-- Reconstruction property of `_splitparams`: when it returns nonempty
params, gluing path, `;` and params back together recovers the input. -/
theorem splitparams_reconstruct (x : List Char) (h : (splitparams x).2 ≠ []) :
    (splitparams x).1 ++ ';' :: (splitparams x).2 = x := by
  simp only [splitparams] at h ⊢
  by_cases hs : x.contains '/' = true
  · rw [if_pos hs] at h ⊢
    by_cases hseg : (x.reverse.takeWhile (fun c => c != '/')).reverse.contains ';' = true
    · rw [if_pos hseg] at h ⊢
      have hmem : ';' ∈ (x.reverse.takeWhile (fun c => c != '/')).reverse :=
        List.elem_iff.mp hseg
      obtain ⟨t, ht⟩ := dropWhile_mem_cons ';' _ hmem
      rw [ht]
      simp only [List.drop_succ_cons, List.drop_zero]
      have hfs : (x.reverse.dropWhile (fun c => c != '/')).reverse ++
          (x.reverse.takeWhile (fun c => c != '/')).reverse = x := by
        rw [← List.reverse_append, List.takeWhile_append_dropWhile, List.reverse_reverse]
      have hseg2 : (x.reverse.takeWhile (fun c => c != '/')).reverse.takeWhile
            (fun c => c != ';') ++ ';' :: t =
          (x.reverse.takeWhile (fun c => c != '/')).reverse := by
        conv_rhs => rw [← List.takeWhile_append_dropWhile (fun c => c != ';')
          ((x.reverse.takeWhile (fun c => c != '/')).reverse)]
        rw [ht]
      rw [List.append_assoc, hseg2, hfs]
    · rw [if_neg hseg] at h
      exact absurd rfl h
  · rw [if_neg hs] at h ⊢
    have hne : x.dropWhile (fun c => c != ';') ≠ [] := by
      intro hnil
      rw [hnil] at h
      simp at h
    have hmem : ';' ∈ x := by
      by_contra hnm
      apply hne
      rw [List.dropWhile_eq_nil_iff]
      intro y hy
      have hy2 : y ≠ ';' := fun hyc => hnm (hyc ▸ hy)
      simp [hy2]
    obtain ⟨t, ht⟩ := dropWhile_mem_cons ';' x hmem
    rw [ht]
    simp only [List.drop_succ_cons, List.drop_zero]
    calc x.takeWhile (fun c => c != ';') ++ ';' :: t
        = x.takeWhile (fun c => c != ';') ++ x.dropWhile (fun c => c != ';') := by rw [ht]
      _ = x := List.takeWhile_append_dropWhile _ _

/-- Function `_splitparams` is the identity (empty params) when the relevant segment
has no semicolon: the case of a path containing `/`. -/
theorem splitparams_id_slash (x : List Char) (hs : x.contains '/' = true)
    (hseg : (x.reverse.takeWhile (fun c => c != '/')).reverse.contains ';' = false) :
    splitparams x = (x, []) := by
  simp only [splitparams]
  rw [if_pos hs, if_neg (by rw [hseg]; exact Bool.false_ne_true)]

/-- Function `_splitparams` is the identity (empty params) on a semicolon-free input
without `/`. -/
theorem splitparams_id_nosemi (x : List Char) (hs : x.contains '/' = false)
    (hx : x.contains ';' = false) :
    splitparams x = (x, []) := by
  have hnm : ';' ∉ x := by
    intro hm
    have h2 : x.contains ';' = true := List.elem_iff.mpr hm
    rw [hx] at h2
    cases h2
  have hall : ∀ y ∈ x, (y != ';') = true := by
    intro y hy
    have : y ≠ ';' := fun hyc => hnm (hyc ▸ hy)
    simp [this]
  simp only [splitparams]
  rw [if_neg (by rw [hs]; exact Bool.false_ne_true)]
  rw [List.takeWhile_eq_self_iff.mpr hall, List.dropWhile_eq_nil_iff.mpr hall]
  rfl

/-- When `_splitparams` returns empty params, running it again on the
returned path (even when that path still contains a semicolon before the
last slash) again returns empty params. -/
theorem splitparams_path_no_params (x : List Char)
    (_h2 : (splitparams x).2 = []) (hc : (splitparams x).1.contains ';' = true) :
    splitparams (splitparams x).1 = ((splitparams x).1, []) := by
  by_cases hs : x.contains '/' = true
  · by_cases hseg : (x.reverse.takeWhile (fun c => c != '/')).reverse.contains ';' = true
    · have hx : splitparams x =
          ((x.reverse.dropWhile (fun c => c != '/')).reverse ++
            ((x.reverse.takeWhile (fun c => c != '/')).reverse.takeWhile (fun c => c != ';')),
           (((x.reverse.takeWhile (fun c => c != '/')).reverse.dropWhile
              (fun c => c != ';')).drop 1)) := by
        simp only [splitparams]
        rw [if_pos hs, if_pos hseg]
      rw [hx]
      have hslash : '/' ∈ x.reverse := List.mem_reverse.mpr (List.elem_iff.mp hs)
      obtain ⟨t0, ht0⟩ := dropWhile_mem_cons '/' x.reverse hslash
      have hfront : (x.reverse.dropWhile (fun c => c != '/')).reverse =
          t0.reverse ++ ['/'] := by
        rw [ht0, List.reverse_cons]
      have hstw_all : ∀ y ∈ ((x.reverse.takeWhile (fun c => c != '/')).reverse.takeWhile
          (fun c => c != ';')).reverse, (y != '/') = true := by
        intro y hy
        rw [List.mem_reverse] at hy
        have hy2 : y ∈ (x.reverse.takeWhile (fun c => c != '/')).reverse :=
          (List.takeWhile_sublist _).subset hy
        rw [List.mem_reverse] at hy2
        exact List.mem_takeWhile_imp (p := fun c => c != '/') hy2
      apply splitparams_id_slash
      · apply List.elem_iff.mpr
        rw [hfront]
        refine List.mem_append.mpr (Or.inl ?_)
        exact List.mem_append.mpr (Or.inr (by simp))
      · have hrev : ((x.reverse.dropWhile (fun c => c != '/')).reverse ++
            ((x.reverse.takeWhile (fun c => c != '/')).reverse.takeWhile
              (fun c => c != ';'))).reverse =
            ((x.reverse.takeWhile (fun c => c != '/')).reverse.takeWhile
              (fun c => c != ';')).reverse ++ ('/' :: t0) := by
          rw [List.reverse_append, List.reverse_reverse, ht0]
        rw [hrev]
        have htw := tw_append (fun c => c != '/')
          (((x.reverse.takeWhile (fun c => c != '/')).reverse.takeWhile
            (fun c => c != ';')).reverse) ('/' :: t0) hstw_all
          (Or.inr ⟨'/', t0, rfl, by simp⟩)
        rw [htw.1, List.reverse_reverse]
        have hnm : ';' ∉ (x.reverse.takeWhile (fun c => c != '/')).reverse.takeWhile
            (fun c => c != ';') := by
          intro hm
          have := List.mem_takeWhile_imp (p := fun c => c != ';') hm
          simp at this
        cases hcc : ((x.reverse.takeWhile (fun c => c != '/')).reverse.takeWhile
            (fun c => c != ';')).contains ';' with
        | false => rfl
        | true => exact absurd (List.elem_iff.mp hcc) hnm
    · have hsegf : (x.reverse.takeWhile (fun c => c != '/')).reverse.contains ';' = false :=
        Bool.not_eq_true _ ▸ (Bool.eq_false_iff.mpr hseg)
      have hx := splitparams_id_slash x hs hsegf
      rw [hx]
      exact splitparams_id_slash x hs hsegf
  · exfalso
    have hsf : x.contains '/' = false := Bool.eq_false_iff.mpr hs
    have hx : splitparams x = (x.takeWhile (fun c => c != ';'),
        (x.dropWhile (fun c => c != ';')).drop 1) := by
      simp only [splitparams]
      rw [if_neg (by rw [hsf]; exact Bool.false_ne_true)]
    rw [hx] at hc
    have : ';' ∈ x.takeWhile (fun c => c != ';') := List.elem_iff.mp hc
    have := List.mem_takeWhile_imp (p := fun c => c != ';') this
    simp at this

/-- Membership facts about the left part of `splitOnFirst`. -/
theorem splitOnFirst_fst_mem (c : Char) (l : List Char) :
    ∀ x ∈ (splitOnFirst c l).1, x ≠ c ∧ x ∈ l := by
  intro x hx
  constructor
  · have := List.mem_takeWhile_imp (p := fun y => y != c) hx
    simpa using this
  · exact (List.takeWhile_sublist _).subset hx

/-- Membership facts about the right part of `splitOnFirst`. -/
theorem splitOnFirst_snd_mem (c : Char) (l : List Char) :
    ∀ x ∈ (splitOnFirst c l).2, x ∈ l := by
  intro x hx
  have h1 : x ∈ l.dropWhile (fun y => y != c) := List.drop_subset 1 _ hx
  exact (List.dropWhile_sublist _).subset h1

/-- Function `dropWhile (not a netloc delimiter)` is empty or starts with a
delimiter. -/
theorem restShape (X : List Char) :
    X.dropWhile (fun c => !netlocDelim c) = [] ∨
    ∃ hd tl, X.dropWhile (fun c => !netlocDelim c) = hd :: tl ∧ netlocDelim hd = true := by
  induction X with
  | nil => exact Or.inl rfl
  | cons y ys ih =>
    by_cases hy : netlocDelim y = true
    · refine Or.inr ⟨y, ys, ?_, hy⟩
      rw [List.dropWhile_cons, if_neg (by simp [hy])]
    · rw [List.dropWhile_cons, if_pos (by simp [Bool.eq_false_iff.mpr hy])]
      exact ih

/-- After splitting fragment and query off a text that is empty or starts
with a netloc delimiter, the path is empty or absolute. -/
theorem pathShape (X : List Char)
    (hX : X = [] ∨ ∃ hd tl, X = hd :: tl ∧ netlocDelim hd = true) :
    (splitOnFirst '?' (splitOnFirst '#' X).1).1 = [] ∨
    (splitOnFirst '?' (splitOnFirst '#' X).1).1.take 1 = ['/'] := by
  rcases hX with rfl | ⟨hd, tl, rfl, hhd⟩
  · left
    rfl
  · have : (hd = '/' ∨ hd = '?') ∨ hd = '#' := by
      simpa [netlocDelim] using hhd
    rcases this with (rfl | rfl) | rfl
    · right
      simp [splitOnFirst]
    · left
      simp [splitOnFirst]
    · left
      simp [splitOnFirst]

/-- Structural invariants of a successful `urlsplit`: the scheme is a
lowercase run of scheme characters; with a nonempty netloc the path is
empty or absolute; path, query and fragment contain none of their
delimiters and none of the removed bytes. -/
theorem urlsplit_inv (l0 : List Char) (s : SplitResult) (h : urlsplit l0 = .ok s) :
    s.scheme.all schemeChar = true ∧
    s.scheme.map Char.toLower = s.scheme ∧
    (s.netloc ≠ [] → (s.path = [] ∨ s.path.take 1 = ['/'])) ∧
    (∀ x ∈ s.path, x ≠ '#' ∧ x ≠ '?' ∧ keptByte x = true) ∧
    (∀ x ∈ s.query, x ≠ '#' ∧ keptByte x = true) ∧
    (∀ x ∈ s.fragment, keptByte x = true) := by
  obtain ⟨hs1, hs2, hs3⟩ := splitScheme_inv (l0.filter keptByte)
  have hkept : ∀ x ∈ (splitScheme (l0.filter keptByte)).2, keptByte x = true :=
    fun x hx => List.of_mem_filter (hs3 x hx)
  simp only [urlsplit] at h
  split at h
  case isTrue htake =>
    split at h
    case isTrue hbr => cases h
    case isFalse hbr =>
      injection h with h
      subst h
      have hkeptX : ∀ x ∈ ((splitScheme (l0.filter keptByte)).2.drop 2).dropWhile
          (fun c => !netlocDelim c), keptByte x = true := by
        intro x hx
        exact hkept x (List.mem_of_mem_drop ((List.dropWhile_sublist _).subset hx))
      refine ⟨hs1, hs2, ?_, ?_, ?_, ?_⟩
      · intro _
        exact pathShape _ (restShape _)
      · intro x hx
        obtain ⟨hq, hx1⟩ := splitOnFirst_fst_mem '?' _ x hx
        obtain ⟨hh, hx2⟩ := splitOnFirst_fst_mem '#' _ x hx1
        exact ⟨hh, hq, hkeptX x hx2⟩
      · intro x hx
        have hx1 := splitOnFirst_snd_mem '?' _ x hx
        obtain ⟨hh, hx2⟩ := splitOnFirst_fst_mem '#' _ x hx1
        exact ⟨hh, hkeptX x hx2⟩
      · intro x hx
        exact hkeptX x (splitOnFirst_snd_mem '#' _ x hx)
  case isFalse htake =>
    injection h with h
    subst h
    refine ⟨hs1, hs2, ?_, ?_, ?_, ?_⟩
    · intro hne
      exact absurd rfl hne
    · intro x hx
      obtain ⟨hq, hx1⟩ := splitOnFirst_fst_mem '?' _ x hx
      obtain ⟨hh, hx2⟩ := splitOnFirst_fst_mem '#' _ x hx1
      exact ⟨hh, hq, hkept x hx2⟩
    · intro x hx
      have hx1 := splitOnFirst_snd_mem '?' _ x hx
      obtain ⟨hh, hx2⟩ := splitOnFirst_fst_mem '#' _ x hx1
      exact ⟨hh, hkept x hx2⟩
    · intro x hx
      exact hkept x (splitOnFirst_snd_mem '#' _ x hx)

/-- Both parts of `_splitparams` are drawn from the input. -/
theorem splitparams_subset (x : List Char) :
    (∀ y ∈ (splitparams x).1, y ∈ x) ∧ (∀ y ∈ (splitparams x).2, y ∈ x) := by
  simp only [splitparams]
  split
  next hs =>
    split
    next hseg =>
      have hfs : (x.reverse.dropWhile (fun c => c != '/')).reverse ++
          (x.reverse.takeWhile (fun c => c != '/')).reverse = x := by
        rw [← List.reverse_append, List.takeWhile_append_dropWhile, List.reverse_reverse]
      constructor
      · intro y hy
        rcases List.mem_append.mp hy with h1 | h1
        · rw [← hfs]
          exact List.mem_append.mpr (Or.inl h1)
        · have h2 : y ∈ (x.reverse.takeWhile (fun c => c != '/')).reverse :=
            (List.takeWhile_sublist _).subset h1
          rw [← hfs]
          exact List.mem_append.mpr (Or.inr h2)
      · intro y hy
        have h1 : y ∈ (x.reverse.takeWhile (fun c => c != '/')).reverse.dropWhile
            (fun c => c != ';') := List.drop_subset 1 _ hy
        have h2 : y ∈ (x.reverse.takeWhile (fun c => c != '/')).reverse :=
          (List.dropWhile_sublist _).subset h1
        rw [← hfs]
        exact List.mem_append.mpr (Or.inr h2)
    next hseg => exact ⟨fun y hy => hy, fun y hy => by cases hy⟩
  next hs =>
    constructor
    · intro y hy
      exact (List.takeWhile_sublist _).subset hy
    · intro y hy
      exact (List.dropWhile_sublist _).subset (List.drop_subset 1 _ hy)

/-- Function `_splitparams` keeps an absolute path absolute (and nonempty). -/
theorem splitparams_fst_shape (x : List Char) (hx : x.take 1 = ['/']) :
    (splitparams x).1 ≠ [] ∧ (splitparams x).1.take 1 = ['/'] := by
  obtain ⟨x', rfl⟩ : ∃ x', x = '/' :: x' := by
    cases x with
    | nil => cases hx
    | cons y ys =>
      rw [List.take_succ_cons, List.take_zero] at hx
      cases hx
      exact ⟨ys, rfl⟩
  have hs : ('/' :: x').contains '/' = true := List.elem_iff.mpr (by simp)
  by_cases hseg :
      (('/' :: x').reverse.takeWhile (fun c => c != '/')).reverse.contains ';' = true
  · have hx2 : splitparams ('/' :: x') =
        ((('/' :: x').reverse.dropWhile (fun c => c != '/')).reverse ++
          ((('/' :: x').reverse.takeWhile (fun c => c != '/')).reverse.takeWhile
            (fun c => c != ';')),
         (((('/' :: x').reverse.takeWhile (fun c => c != '/')).reverse.dropWhile
            (fun c => c != ';')).drop 1)) := by
      simp only [splitparams]
      rw [if_pos hs, if_pos hseg]
    rw [hx2]
    have hfs : (('/' :: x').reverse.dropWhile (fun c => c != '/')).reverse ++
        (('/' :: x').reverse.takeWhile (fun c => c != '/')).reverse = '/' :: x' := by
      rw [← List.reverse_append, List.takeWhile_append_dropWhile, List.reverse_reverse]
    have hfront_ne : (('/' :: x').reverse.dropWhile (fun c => c != '/')).reverse ≠ [] := by
      intro hnil
      have h0 : ('/' :: x').reverse.dropWhile (fun c => c != '/') = [] := by
        have := congrArg List.reverse hnil
        rwa [List.reverse_reverse] at this
      have hmem : '/' ∈ ('/' :: x').reverse := List.mem_reverse.mpr (by simp)
      have := List.dropWhile_eq_nil_iff.mp h0 '/' hmem
      simp at this
    obtain ⟨f0, fr, hf⟩ : ∃ f0 fr,
        (('/' :: x').reverse.dropWhile (fun c => c != '/')).reverse = f0 :: fr := by
      rcases hff : (('/' :: x').reverse.dropWhile (fun c => c != '/')).reverse with _ | ⟨a, b⟩
      · exact absurd hff hfront_ne
      · exact ⟨a, b, rfl⟩
    rw [hf] at hfs
    have hf0 : f0 = '/' := by
      have := congrArg (fun l => l.take 1) hfs
      simpa using this
    rw [hf, hf0]
    exact ⟨by simp, by simp⟩
  · rw [splitparams_id_slash _ hs (Bool.eq_false_iff.mpr hseg)]
    exact ⟨by simp, by simp⟩

/-- Structural invariants of a successful `urlparse`, as needed to re-parse
the result of `urlunparse` after a netloc replacement. -/
theorem urlparse_inv (l0 : List Char) (r : ParseResult) (h : urlparse l0 = .ok r) :
    r.scheme.all schemeChar = true ∧
    r.scheme.map Char.toLower = r.scheme ∧
    (r.netloc ≠ [] → (r.path = [] ∨ r.path.take 1 = ['/'])) ∧
    (r.netloc ≠ [] → r.params ≠ [] → r.path ≠ [] ∧ r.path.take 1 = ['/']) ∧
    (∀ x ∈ r.path, x ≠ '#' ∧ x ≠ '?' ∧ keptByte x = true) ∧
    (∀ x ∈ r.params, x ≠ '#' ∧ x ≠ '?' ∧ keptByte x = true) ∧
    (∀ x ∈ r.query, x ≠ '#' ∧ keptByte x = true) ∧
    (∀ x ∈ r.fragment, keptByte x = true) ∧
    (r.params ≠ [] → r.scheme ∈ uses_params) ∧
    (r.params ≠ [] → splitparams (r.path ++ ';' :: r.params) = (r.path, r.params)) ∧
    (r.params = [] → r.scheme ∈ uses_params → r.path.contains ';' = true →
      splitparams r.path = (r.path, [])) := by
  simp only [urlparse] at h
  split at h
  next e heq => cases h
  next s heq =>
    obtain ⟨i1, i2, i3, i4, i5, i6⟩ := urlsplit_inv l0 s heq
    split at h
    next hcond =>
      injection h with h
      subst h
      have hpne : s.path ≠ [] := by
        intro hnil
        rw [hnil] at hcond
        cases hcond.2
      have hshape := splitparams_fst_shape s.path
      have hsub := splitparams_subset s.path
      refine ⟨i1, i2, ?_, ?_, ?_, ?_, ?_, ?_, ?_, ?_, ?_⟩
      · intro hn
        rcases i3 hn with hnil | htk
        · exact absurd hnil hpne
        · exact Or.inr (hshape htk).2
      · intro hn _
        rcases i3 hn with hnil | htk
        · exact absurd hnil hpne
        · exact hshape htk
      · intro x hx
        exact i4 x (hsub.1 x hx)
      · intro x hx
        exact i4 x (hsub.2 x hx)
      · exact i5
      · exact i6
      · intro _
        exact hcond.1
      · intro hne
        rw [splitparams_reconstruct s.path hne]
      · intro hz hsch hcont
        exact splitparams_path_no_params s.path hz hcont
    next hcond =>
      injection h with h
      subst h
      refine ⟨i1, i2, i3, ?_, i4, ?_, i5, i6, ?_, ?_, ?_⟩
      · intro _ hne
        exact absurd rfl hne
      · intro x hx
        cases hx
      · intro hne
        exact absurd rfl hne
      · intro hne
        exact absurd rfl hne
      · intro _ hsch hcont
        exact absurd ⟨hsch, hcont⟩ hcond

/-- Re-splitting the canonical unsplit form recovers the components.  This
is the core of the idempotence/frame argument for `replace_domain`: the
hypotheses are exactly the invariants `urlparse_inv` provides (with the
replacement netloc substituted). -/
theorem urlsplit_canonical (scheme netloc pa q f : List Char)
    (hsch_all : scheme.all schemeChar = true)
    (hsch_low : scheme.map Char.toLower = scheme)
    (hnet : ∀ x ∈ netloc, netlocDelim x = false ∧ keptByte x = true)
    (hbr1 : netloc.contains '[' = false) (hbr2 : netloc.contains ']' = false)
    (hpa_shape : pa = [] ∨ pa.take 1 = ['/'])
    (hpa : ∀ x ∈ pa, x ≠ '#' ∧ x ≠ '?' ∧ keptByte x = true)
    (hq : ∀ x ∈ q, x ≠ '#' ∧ keptByte x = true)
    (hf : ∀ x ∈ f, keptByte x = true) :
    urlsplit ((if scheme ≠ [] then scheme ++ [':'] else []) ++ '/' :: '/' ::
        (netloc ++ (pa ++ ((if q ≠ [] then '?' :: q else []) ++
          (if f ≠ [] then '#' :: f else []))))) =
      .ok ⟨scheme, netloc, pa, q, f⟩ := by
  have hqf_kept : ∀ x ∈ (if q ≠ [] then '?' :: q else []) ++
      (if f ≠ [] then '#' :: f else []), keptByte x = true := by
    intro x hx
    rcases List.mem_append.mp hx with h1 | h1
    · by_cases hqe : q ≠ []
      · rw [if_pos hqe] at h1
        rcases List.mem_cons.mp h1 with rfl | h2
        · rfl
        · exact (hq x h2).2
      · rw [if_neg hqe] at h1
        cases h1
    · by_cases hfe : f ≠ []
      · rw [if_pos hfe] at h1
        rcases List.mem_cons.mp h1 with rfl | h2
        · rfl
        · exact hf x h2
      · rw [if_neg hfe] at h1
        cases h1
  have hb_kept : ∀ x ∈ pa ++ ((if q ≠ [] then '?' :: q else []) ++
      (if f ≠ [] then '#' :: f else [])), keptByte x = true := by
    intro x hx
    rcases List.mem_append.mp hx with h1 | h1
    · exact (hpa x h1).2.2
    · exact hqf_kept x h1
  have ho_kept : ∀ x ∈ (if scheme ≠ [] then scheme ++ [':'] else []) ++ '/' :: '/' ::
      (netloc ++ (pa ++ ((if q ≠ [] then '?' :: q else []) ++
        (if f ≠ [] then '#' :: f else [])))), keptByte x = true := by
    intro x hx
    rcases List.mem_append.mp hx with h1 | h1
    · by_cases hse : scheme ≠ []
      · rw [if_pos hse] at h1
        rcases List.mem_append.mp h1 with h2 | h2
        · exact (schemeChar_props x (List.all_eq_true.mp hsch_all x h2)).2.2.2.2
        · rcases List.mem_cons.mp h2 with rfl | h3
          · rfl
          · cases h3
      · rw [if_neg hse] at h1
        cases h1
    · rcases List.mem_cons.mp h1 with rfl | h2
      · rfl
      · rcases List.mem_cons.mp h2 with rfl | h3
        · rfl
        · rcases List.mem_append.mp h3 with h4 | h4
          · exact (hnet x h4).2
          · exact hb_kept x h4
  have hb_shape : pa ++ ((if q ≠ [] then '?' :: q else []) ++
      (if f ≠ [] then '#' :: f else [])) = [] ∨
      ∃ hd tl, pa ++ ((if q ≠ [] then '?' :: q else []) ++
        (if f ≠ [] then '#' :: f else [])) = hd :: tl ∧ netlocDelim hd = true := by
    rcases hpa_shape with rfl | hp1
    · by_cases hqe : q ≠ []
      · rw [if_pos hqe]
        exact Or.inr ⟨'?', _, rfl, by decide⟩
      · rw [if_neg hqe]
        by_cases hfe : f ≠ []
        · rw [if_pos hfe]
          exact Or.inr ⟨'#', _, rfl, by decide⟩
        · rw [if_neg hfe]
          exact Or.inl rfl
    · cases pa with
      | nil => cases hp1
      | cons p0 pr =>
        rw [List.take_succ_cons, List.take_zero] at hp1
        cases hp1
        exact Or.inr ⟨'/', _, rfl, by decide⟩
  have hnetloc_split := tw_append (fun c => !netlocDelim c) netloc
    (pa ++ ((if q ≠ [] then '?' :: q else []) ++ (if f ≠ [] then '#' :: f else [])))
    (fun c hc => by simp [(hnet c hc).1])
    (by
      rcases hb_shape with hb | ⟨hd, tl, hb, hhd⟩
      · exact Or.inl hb
      · exact Or.inr ⟨hd, tl, hb, by simp [hhd]⟩)
  have hsharp_split : splitOnFirst '#'
      (pa ++ ((if q ≠ [] then '?' :: q else []) ++ (if f ≠ [] then '#' :: f else []))) =
      (pa ++ (if q ≠ [] then '?' :: q else []), f) := by
    by_cases hfe : f ≠ []
    · rw [if_pos hfe, ← List.append_assoc]
      exact splitOnFirst_append '#' _ f (by
        intro x hx
        rcases List.mem_append.mp hx with h1 | h1
        · exact (hpa x h1).1
        · by_cases hqe : q ≠ []
          · rw [if_pos hqe] at h1
            rcases List.mem_cons.mp h1 with rfl | h2
            · decide
            · exact (hq x h2).1
          · rw [if_neg hqe] at h1
            cases h1)
    · rw [if_neg hfe, List.append_nil]
      have hfnil : f = [] := by
        by_contra hc
        exact hfe hc
      rw [hfnil]
      exact splitOnFirst_of_not_mem '#' _ (by
        intro x hx
        rcases List.mem_append.mp hx with h1 | h1
        · exact (hpa x h1).1
        · by_cases hqe : q ≠ []
          · rw [if_pos hqe] at h1
            rcases List.mem_cons.mp h1 with rfl | h2
            · decide
            · exact (hq x h2).1
          · rw [if_neg hqe] at h1
            cases h1)
  have hquest_split : splitOnFirst '?' (pa ++ (if q ≠ [] then '?' :: q else [])) =
      (pa, q) := by
    by_cases hqe : q ≠ []
    · rw [if_pos hqe]
      exact splitOnFirst_append '?' pa q (fun x hx => (hpa x hx).2.1)
    · rw [if_neg hqe, List.append_nil]
      have hqnil : q = [] := by
        by_contra hc
        exact hqe hc
      rw [hqnil]
      exact splitOnFirst_of_not_mem '?' pa (fun x hx => (hpa x hx).2.1)
  have hss : splitScheme ((if scheme ≠ [] then scheme ++ [':'] else []) ++ '/' :: '/' ::
      (netloc ++ (pa ++ ((if q ≠ [] then '?' :: q else []) ++
        (if f ≠ [] then '#' :: f else []))))) =
      (scheme, '/' :: '/' :: (netloc ++ (pa ++ ((if q ≠ [] then '?' :: q else []) ++
        (if f ≠ [] then '#' :: f else []))))) := by
    by_cases hse : scheme ≠ []
    · rw [if_pos hse]
      rw [show (scheme ++ [':']) ++ '/' :: '/' :: (netloc ++ (pa ++
          ((if q ≠ [] then '?' :: q else []) ++ (if f ≠ [] then '#' :: f else [])))) =
        scheme ++ ':' :: ('/' :: '/' :: (netloc ++ (pa ++
          ((if q ≠ [] then '?' :: q else []) ++ (if f ≠ [] then '#' :: f else []))))) from by
        simp]
      rw [splitScheme_scheme scheme _ hse hsch_all, hsch_low]
    · rw [if_neg hse, List.nil_append, not_ne_iff.mp hse]
      exact splitScheme_slash _
  simp only [urlsplit]
  rw [List.filter_eq_self.mpr ho_kept, hss]
  rw [if_pos (by simp)]
  simp only [List.drop_succ_cons, List.drop_zero]
  rw [hnetloc_split.1, hnetloc_split.2]
  rw [if_neg (by rw [hbr1, hbr2]; simp)]
  rw [hsharp_split, hquest_split]

/-- Function `urlunparse` written in the canonical appended form, for a result with
a nonempty netloc and an absolute (or empty) path-with-params. -/
theorem urlunparse_canonical (r : ParseResult) (hnne : r.netloc ≠ [])
    (hp_shape : (if r.params ≠ [] then r.path ++ ';' :: r.params else r.path) = [] ∨
      (if r.params ≠ [] then r.path ++ ';' :: r.params else r.path).take 1 = ['/']) :
    urlunparse r = (if r.scheme ≠ [] then r.scheme ++ [':'] else []) ++ '/' :: '/' ::
      (r.netloc ++ ((if r.params ≠ [] then r.path ++ ';' :: r.params else r.path) ++
        ((if r.query ≠ [] then '?' :: r.query else []) ++
          (if r.fragment ≠ [] then '#' :: r.fragment else [])))) := by
  have hinner : ¬((if r.params ≠ [] then r.path ++ ';' :: r.params else r.path) ≠ [] ∧
      (if r.params ≠ [] then r.path ++ ';' :: r.params else r.path).take 1 ≠ ['/']) := by
    rcases hp_shape with hp | hp
    · intro hc
      exact hc.1 hp
    · intro hc
      exact hc.2 hp
  unfold urlunparse urlunsplit
  rw [if_pos (Or.inl hnne), if_neg hinner]
  by_cases hse : r.scheme ≠ [] <;> by_cases hqe : r.query ≠ [] <;>
    by_cases hfe : r.fragment ≠ [] <;>
      simp [hse, hqe, hfe, List.append_assoc]

/-- Re-parsing the unparsed form of a parse result with the netloc
replaced: the main reconstruction lemma. -/
theorem urlparse_urlunparse (r : ParseResult)
    (h1 : r.scheme.all schemeChar = true)
    (h2 : r.scheme.map Char.toLower = r.scheme)
    (hnet : ∀ x ∈ r.netloc, netlocDelim x = false ∧ keptByte x = true)
    (hnne : r.netloc ≠ [])
    (hbr1 : r.netloc.contains '[' = false) (hbr2 : r.netloc.contains ']' = false)
    (h3 : r.path = [] ∨ r.path.take 1 = ['/'])
    (h4 : r.params ≠ [] → r.path ≠ [] ∧ r.path.take 1 = ['/'])
    (h5 : ∀ x ∈ r.path, x ≠ '#' ∧ x ≠ '?' ∧ keptByte x = true)
    (h6 : ∀ x ∈ r.params, x ≠ '#' ∧ x ≠ '?' ∧ keptByte x = true)
    (h7 : ∀ x ∈ r.query, x ≠ '#' ∧ keptByte x = true)
    (h8 : ∀ x ∈ r.fragment, keptByte x = true)
    (h9 : r.params ≠ [] → r.scheme ∈ uses_params)
    (h10 : r.params ≠ [] → splitparams (r.path ++ ';' :: r.params) = (r.path, r.params))
    (h11 : r.params = [] → r.scheme ∈ uses_params → r.path.contains ';' = true →
      splitparams r.path = (r.path, [])) :
    urlparse (urlunparse r) = .ok r := by
  have hp_shape : (if r.params ≠ [] then r.path ++ ';' :: r.params else r.path) = [] ∨
      (if r.params ≠ [] then r.path ++ ';' :: r.params else r.path).take 1 = ['/'] := by
    by_cases hpe : r.params ≠ []
    · rw [if_pos hpe]
      obtain ⟨hne, htk⟩ := h4 hpe
      rcases hpath : r.path with _ | ⟨p0, pr⟩
      · exact absurd hpath hne
      · rw [hpath, List.take_succ_cons, List.take_zero] at htk
        injection htk with hp0 _
        right
        simp [hp0]
    · rw [if_neg hpe]
      exact h3
  have hp_mem : ∀ x ∈ (if r.params ≠ [] then r.path ++ ';' :: r.params else r.path),
      x ≠ '#' ∧ x ≠ '?' ∧ keptByte x = true := by
    intro x hx
    by_cases hpe : r.params ≠ []
    · rw [if_pos hpe] at hx
      rcases List.mem_append.mp hx with hm | hm
      · exact h5 x hm
      · rcases List.mem_cons.mp hm with rfl | hm2
        · exact ⟨by decide, by decide, rfl⟩
        · exact h6 x hm2
    · rw [if_neg hpe] at hx
      exact h5 x hx
  rw [urlunparse_canonical r hnne hp_shape]
  have husplit := urlsplit_canonical r.scheme r.netloc
    (if r.params ≠ [] then r.path ++ ';' :: r.params else r.path) r.query r.fragment
    h1 h2 hnet hbr1 hbr2 hp_shape hp_mem h7 h8
  simp only [urlparse]
  simp only [husplit]
  by_cases hpe : r.params ≠ []
  · rw [if_pos ?hcond]
    case hcond =>
      constructor
      · exact h9 hpe
      · rw [if_pos hpe]
        apply List.elem_iff.mpr
        exact List.mem_append.mpr (Or.inr (by simp))
    rw [if_pos hpe, h10 hpe]
  · have hz : r.params = [] := not_ne_iff.mp hpe
    rw [if_neg hpe]
    by_cases hcond : r.scheme ∈ uses_params ∧ r.path.contains ';' = true
    · rw [if_pos hcond, h11 hz hcond.1 hcond.2, ← hz]
    · rw [if_neg hcond, ← hz]

/-- The `replacements` table maps only the two exact keys, both to the
proxy-mirror host. -/
theorem lookup_replacements (k N : List Char) (h : replacements.lookup k = some N) :
    N = "api.fxtwitter.com".toList ∧
      (k = "twitter.com".toList ∨ k = "x.com".toList) := by
  by_cases h1 : k = "twitter.com".toList
  · subst h1
    have h2 : replacements.lookup "twitter.com".toList =
        some "api.fxtwitter.com".toList := by rfl
    rw [h2] at h
    injection h with h
    exact ⟨h.symm, Or.inl rfl⟩
  · by_cases h2 : k = "x.com".toList
    · subst h2
      have h3 : replacements.lookup "x.com".toList =
          some "api.fxtwitter.com".toList := by rfl
      rw [h3] at h
      injection h with h
      exact ⟨h.symm, Or.inr rfl⟩
    · have h3 : replacements.lookup k = none := by
        have hb1 : (k == "twitter.com".toList) = false := beq_eq_false_iff_ne.mpr h1
        have hb2 : (k == "x.com".toList) = false := beq_eq_false_iff_ne.mpr h2
        simp only [replacements, List.lookup, hb1, hb2]
      rw [h3] at h
      cases h

/-- A netloc different from both keys is not rewritten. -/
theorem lookup_replacements_none (k : List Char) (h1 : k ≠ "twitter.com".toList)
    (h2 : k ≠ "x.com".toList) : replacements.lookup k = none := by
  have hb1 : (k == "twitter.com".toList) = false := beq_eq_false_iff_ne.mpr h1
  have hb2 : (k == "x.com".toList) = false := beq_eq_false_iff_ne.mpr h2
  simp only [replacements, List.lookup, hb1, hb2]

/-- The facts `urlparse_urlunparse` needs about the replacement netloc. -/
theorem api_host_facts :
    (∀ x ∈ "api.fxtwitter.com".toList, netlocDelim x = false ∧ keptByte x = true) ∧
    "api.fxtwitter.com".toList ≠ [] ∧
    "api.fxtwitter.com".toList.contains '[' = false ∧
    "api.fxtwitter.com".toList.contains ']' = false := by
  refine ⟨?_, by decide, by decide, by decide⟩
  intro x hx
  fin_cases hx <;> exact ⟨by decide, by decide⟩

/-- After a successful rewrite, re-parsing the rewritten URL yields the
original components with the replacement netloc. -/
theorem urlparse_after_replace (u : List Char) (r : ParseResult) (N : List Char)
    (hu : urlparse u = .ok r) (hl : replacements.lookup r.netloc = some N) :
    urlparse (urlunparse { r with netloc := N }) = .ok { r with netloc := N } := by
  obtain ⟨hN, hk⟩ := lookup_replacements _ _ hl
  subst hN
  obtain ⟨i1, i2, i3, i4, i5, i6, i7, i8, i9, i10, i11⟩ := urlparse_inv u r hu
  have hnn : r.netloc ≠ [] := by
    rcases hk with h | h <;> rw [h] <;> decide
  obtain ⟨a1, a2, a3, a4⟩ := api_host_facts
  exact urlparse_urlunparse { r with netloc := "api.fxtwitter.com".toList }
    i1 i2 a1 a2 a3 a4 (i3 hnn) (i4 hnn) i5 i6 i7 i8 i9 i10 i11

/-! ### Claim C7: idempotence of URL normalization -/

/-- C7: normalization is idempotent — whenever `replace_domain` succeeds,
applying it to its own output returns that output unchanged; moreover a URL
whose host is not in the replacement table (unknown domains, and
already-normalized hosts such as the proxy-mirror host itself) passes
through completely unchanged. -/
theorem claim7_idempotent (u v : List Char) (h : replace_domain u = .ok v) :
    replace_domain v = .ok v ∧
    (∀ r, urlparse u = .ok r → replacements.lookup r.netloc = none → v = u) := by
  rcases hu : urlparse u with e | r
  · simp only [replace_domain, hu] at h
    exact Except.noConfusion h
  · simp only [replace_domain, hu] at h
    rcases hl : replacements.lookup r.netloc with _ | N
    · simp only [hl] at h
      injection h with h
      subst h
      constructor
      · simp only [replace_domain, hu, hl]
      · intro r' hr' _
        rfl
    · simp only [hl] at h
      injection h with h
      subst h
      have hreparse := urlparse_after_replace u r N hu hl
      have hN := (lookup_replacements _ _ hl).1
      have hnone : replacements.lookup ({ r with netloc := N } : ParseResult).netloc =
          none := by
        rw [show ({ r with netloc := N } : ParseResult).netloc = N from rfl, hN]
        exact lookup_replacements_none _ (by decide) (by decide)
      constructor
      · simp only [replace_domain, hreparse, hnone]
      · intro r' hr' hl'
        injection hr' with hr'
        subst hr'
        rw [hl] at hl'
        cases hl'

/-- Witness for C7: normalizing the normalized form of an x.com URL is a
no-op. -/
theorem claim7_idempotent_witness :
    replace_domain "https://api.fxtwitter.com/user/status/123".toList =
      .ok "https://api.fxtwitter.com/user/status/123".toList :=
  (claim7_idempotent "https://x.com/user/status/123".toList
    "https://api.fxtwitter.com/user/status/123".toList (by rfl)).1

/-! ### Claim C8: normalization changes only the host -/

/-- C8: `replace_domain` changes only the host component — the parsed
scheme, path, params, query and fragment of the output equal those of the
input, and the output parses successfully whenever the input did. -/
theorem claim8_host_only (u v : List Char) (h : replace_domain u = .ok v) :
    ∃ r r', urlparse u = .ok r ∧ urlparse v = .ok r' ∧
      r'.scheme = r.scheme ∧ r'.path = r.path ∧ r'.params = r.params ∧
      r'.query = r.query ∧ r'.fragment = r.fragment := by
  rcases hu : urlparse u with e | r
  · simp only [replace_domain, hu] at h
    exact Except.noConfusion h
  · simp only [replace_domain, hu] at h
    rcases hl : replacements.lookup r.netloc with _ | N
    · simp only [hl] at h
      injection h with h
      subst h
      refine ⟨r, r, ?_, ?_, rfl, rfl, rfl, rfl, rfl⟩ <;>
        first
          | exact hu
          | rfl
    · simp only [hl] at h
      injection h with h
      subst h
      refine ⟨r, { r with netloc := N }, ?_, ?_, rfl, rfl, rfl, rfl, rfl⟩
      · first
          | exact hu
          | rfl
      · exact urlparse_after_replace u r N hu hl

/-- Witness for C8: the spec's concrete example — `https://x.com/user/status/123`
is rewritten to the proxy-mirror host with the path preserved verbatim. -/
theorem claim8_host_only_witness :
    replace_domain "https://x.com/user/status/123".toList =
      .ok "https://api.fxtwitter.com/user/status/123".toList ∧
    ∃ r r', urlparse "https://x.com/user/status/123".toList = .ok r ∧
      urlparse "https://api.fxtwitter.com/user/status/123".toList = .ok r' ∧
      r'.scheme = r.scheme ∧ r'.path = r.path ∧ r'.params = r.params ∧
      r'.query = r.query ∧ r'.fragment = r.fragment :=
  ⟨by rfl, claim8_host_only "https://x.com/user/status/123".toList
    "https://api.fxtwitter.com/user/status/123".toList (by rfl)⟩

/-! ### Claim C10: exact host matching only -/

/-- C10: the replacement table is consulted by exact netloc equality: when
the parsed host differs from both `twitter.com` and `x.com` — including
hosts that merely end with those strings, like `www.twitter.com` — the URL
passes through unchanged; the two exact hosts are rewritten to the
proxy-mirror host. -/
theorem claim10_exact_host (u : List Char) (r : ParseResult)
    (h : urlparse u = .ok r) :
    (r.netloc ≠ "twitter.com".toList ∧ r.netloc ≠ "x.com".toList →
      replace_domain u = .ok u) ∧
    (r.netloc = "twitter.com".toList ∨ r.netloc = "x.com".toList →
      replace_domain u =
        .ok (urlunparse { r with netloc := "api.fxtwitter.com".toList })) := by
  constructor
  · rintro ⟨h1, h2⟩
    simp only [replace_domain, h, lookup_replacements_none r.netloc h1 h2]
  · intro hk
    have hl : replacements.lookup r.netloc = some "api.fxtwitter.com".toList := by
      rcases hk with hk | hk <;> rw [hk] <;> rfl
    simp only [replace_domain, h, hl]

/-- Witness for C10: `www.twitter.com` and `mobile.twitter.com` merely end
with a known source domain and pass through unchanged, while the exact host
`twitter.com` is rewritten. -/
theorem claim10_exact_host_witness :
    replace_domain "https://www.twitter.com/user/status/1".toList =
      .ok "https://www.twitter.com/user/status/1".toList ∧
    replace_domain "https://mobile.twitter.com/user/status/1".toList =
      .ok "https://mobile.twitter.com/user/status/1".toList ∧
    replace_domain "https://twitter.com/user/status/1".toList =
      .ok "https://api.fxtwitter.com/user/status/1".toList := by
  refine ⟨?_, ?_, ?_⟩
  · exact (claim10_exact_host "https://www.twitter.com/user/status/1".toList
      ⟨"https".toList, "www.twitter.com".toList, "/user/status/1".toList, [], [], []⟩
      (by rfl)).1 ⟨by decide, by decide⟩
  · exact (claim10_exact_host "https://mobile.twitter.com/user/status/1".toList
      ⟨"https".toList, "mobile.twitter.com".toList, "/user/status/1".toList, [], [], []⟩
      (by rfl)).1 ⟨by decide, by decide⟩
  · exact (claim10_exact_host "https://twitter.com/user/status/1".toList
      ⟨"https".toList, "twitter.com".toList, "/user/status/1".toList, [], [], []⟩
      (by rfl)).2 (Or.inl rfl)
